import Mathlib

/-!
Verification development for the ireul Ogg/Vorbis re-streaming server.

The definitions below are a shallow embedding of the Rust sources:
  * `src/libireul_core/src/core.rs` — the splicing engine (`Core`);
  * `src/src/core/main.rs` — the older engine variant (`OutputManager`);
  * `src/ireul-core/src/eloop/dbus.rs` — the message-bus request adapter.

Machine integers (`u32`, `u64`) are modelled as `Nat`; `wrapping_add` is
modelled explicitly with `% 2^32`.  An Ogg page is modelled by its header
fields together with its packet list; byte identity of pages corresponds to
structural equality of this model.  The external collaborators whose sources
are not part of the repository snapshot (the play queue, the Icecast writer
and the Ogg clock) are modelled from the specification, as marked on each
such definition.
-/

deriving instance DecidableEq for Except

namespace Ireul

def U32_MOD : Nat := 4294967296

def U64_MAX : Nat := 18446744073709551615

def wrappingAdd32 (a b : Nat) : Nat := (a + b) % U32_MOD

/-- Vorbis comment header payload: a vendor string and an ordered list of
key/value entries (`ogg::vorbis::Comments`). -/
structure VorbisComments where
  vendor : String
  comments : List (String × String)
deriving DecidableEq

/-- A raw packet carried by an Ogg page, as the engine's code distinguishes
them: a Vorbis identification header (carrying `audio_sample_rate`), a Vorbis
comment header, or any other packet (audio or non-Vorbis), kept as bytes. -/
inductive Packet where
  | ident (audio_sample_rate : Nat)
  | comment (c : VorbisComments)
  | audio (data : List Nat)
deriving DecidableEq

def Packet.commentData : Packet → Option VorbisComments
  | .comment c => some c
  | _ => none

def Packet.identRate : Packet → Option Nat
  | .ident r => some r
  | _ => none

/-- An Ogg page (`ogg::OggPage`): header fields plus the contained packets.
`granule` is the granule position (`position()` in the source). -/
structure OggPage where
  granule : Nat
  serial : Nat
  sequence : Nat
  bos : Bool
  eos : Bool
  continued : Bool
  packets : List Packet
deriving DecidableEq

/-- An Ogg track (`ogg::OggTrack`) is its sequence of pages. -/
abbrev Track := List OggPage

abbrev Metadata := List (String × String)

def trackPackets (t : Track) : List Packet := t.flatMap OggPage.packets

/-- `core.rs::validate_positions` inner loop: granule positions must be
non-decreasing, starting from the running value `current`. -/
def validatePositionsFrom (current : Nat) : List OggPage → Bool
  | [] => true
  | p :: rest =>
    if p.granule < current then false else validatePositionsFrom p.granule rest

/-- `core.rs::validate_positions`: the first page must have granule 0, and
granules must be non-decreasing over the track. -/
def validate_positions : Track → Bool
  | [] => true
  | p :: rest =>
    if p.granule ≠ 0 then false else validatePositionsFrom p.granule rest

/-- `core.rs::validate_comment_section`: succeeds iff some packet of the
track is a Vorbis comment header (`VorbisPacket::find_comments`). -/
def validate_comment_section (t : Track) : Bool :=
  (trackPackets t).any fun pkt => (Packet.commentData pkt).isSome

/-- `VorbisPacket::find_identification`: the first identification header's
sample rate, in page-then-packet order. -/
def find_identification (t : Track) : Option Nat :=
  (trackPackets t).findSome? Packet.identRate

/-- `core.rs::check_sample_rate`: finds the identification header and
compares its `audio_sample_rate` with the requested rate; failure to find
one is also an error. -/
def check_sample_rate (req : Nat) (t : Track) : Bool :=
  match find_identification t with
  | some rate => rate = req
  | none => false

/-- `core.rs::update_serial`: set every page's serial (CRC recomputation is
implicit in the page model). -/
def update_serial (serial : Nat) (t : Track) : Track :=
  t.map fun p => { p with serial := serial }

/-- The comment-rewriting closure used by `enqueue_track` and
`replace_fallback` in `core.rs`: set the vendor to `"Ireul Core"` and, when
metadata was supplied, clear the entries and replace them with it. -/
def applyMetadata (metadata : Option Metadata) (c : VorbisComments) : VorbisComments :=
  { vendor := "Ireul Core"
    comments :=
      match metadata with
      | some m => m
      | none => c.comments }

/-- One step of the packet loop of `core.rs::rewrite_comments`: a comment
packet is rebuilt from its transformed comments
(`VorbisPacketBuf::build_comment_packet`); every other packet is added to
the builder unchanged. -/
def rewritePacket (f : VorbisComments → VorbisComments) : Packet → Packet
  | .comment c => .comment (f c)
  | pkt => pkt

/-- The packet loop of `core.rs::rewrite_comments`: packets are re-emitted
in original order, comment packets rebuilt. -/
def rewritePagePackets (f : VorbisComments → VorbisComments) (l : List Packet) : List Packet :=
  l.map (rewritePacket f)

def pageHasComment (p : OggPage) : Bool :=
  p.packets.any fun pkt => (Packet.commentData pkt).isSome

/-- The per-page body of `core.rs::rewrite_comments`: pages without a comment
packet pass through unchanged; a page with one is rebuilt from its packets
through the builder, then `granule`, `serial`, `sequence`, `continued`,
`bos`, `eos` are copied from the original page. -/
def rewrite_page (f : VorbisComments → VorbisComments) (p : OggPage) : OggPage :=
  if pageHasComment p then
    { granule := p.granule
      serial := p.serial
      sequence := p.sequence
      bos := p.bos
      eos := p.eos
      continued := p.continued
      packets := rewritePagePackets f p.packets }
  else p

/-- `core.rs::rewrite_comments`: page-by-page rebuild of the track. -/
def rewrite_comments (f : VorbisComments → VorbisComments) (t : Track) : Track :=
  t.map (rewrite_page f)

/-- Modelled from the spec: `queue::Track` (source file `queue.rs` is not in
the snapshot) — an admitted track with its handle (§3, §4.3). -/
structure QueuedTrack where
  handle : Nat
  data : Track
deriving DecidableEq

/-- Modelled from the spec: `TrackInfo` (§4.3) — handle plus current sample
position.  `started_at` timestamps are not modelled. -/
structure TrackInfo where
  handle : Nat
  sample_position : Nat
deriving DecidableEq

/-- Modelled from the spec: `queue::Track::get_track_info` — an upcoming
entry reports `sample_position = 0` (§4.3). -/
def QueuedTrack.get_track_info (t : QueuedTrack) : TrackInfo :=
  { handle := t.handle, sample_position := 0 }

inductive PlayQueueError where
  | full
deriving DecidableEq

/-- Modelled from the spec: `queue::PlayQueue` (§3, §4.3) — a bounded FIFO
of admitted tracks, a history log and a monotone handle allocator. -/
structure PlayQueue where
  capacity : Nat
  upcoming : List QueuedTrack
  history : List TrackInfo
  next_handle : Nat
deriving DecidableEq

/-- Modelled from the spec: `PlayQueue::add_track` — fails with `Full` when
`len == capacity` (and then does not mutate); otherwise allocates a fresh
handle and appends (§4.3). -/
def PlayQueue.add_track (q : PlayQueue) (t : Track) : PlayQueue × Except PlayQueueError Nat :=
  if q.capacity ≤ q.upcoming.length then
    (q, .error .full)
  else
    ({ q with
        upcoming := q.upcoming ++ [{ handle := q.next_handle, data := t }]
        next_handle := q.next_handle + 1 },
      .ok q.next_handle)

/-- Modelled from the spec: `PlayQueue::pop_track` — removes the head of the
FIFO, logging it into the history (§4.3); yields `none` on an empty queue. -/
def PlayQueue.pop_track (q : PlayQueue) : Option QueuedTrack × PlayQueue :=
  match q.upcoming with
  | [] => (none, q)
  | t :: rest =>
    (some t, { q with upcoming := rest, history := t.get_track_info :: q.history })

/-- Modelled from the spec: the `IcecastSink` (§6.2) — it accepts pages and
writes them byte-exactly; `failing` abstracts a transient I/O failure of the
next write. -/
structure IceCastWriter where
  sent : List OggPage
  failing : Bool
deriving DecidableEq

/-- Modelled from the spec: `IceCastWriter::send_ogg_page` — writes the page
or reports a transient failure (§6.2, §7). -/
def IceCastWriter.send_ogg_page (w : IceCastWriter) (p : OggPage) :
    IceCastWriter × Except Unit Unit :=
  if w.failing then (w, .error ()) else ({ w with sent := w.sent ++ [p] }, .ok ())

/-- Modelled from the spec: the Pacer / `OggClock` (§4.5) — converts granule
deltas to wall time using the sample rate. -/
structure OggClock where
  sample_rate : Nat
  prev_granule : Nat
deriving DecidableEq

/-- Modelled from the spec: `OggClock::wait_duration` (§4.5) — the granule
delta divided by the sample rate, with the `u64::MAX` sentinel treated as
zero duration. -/
def OggClock.wait_duration (clock : OggClock) (p : OggPage) : Nat :=
  if p.granule = U64_MAX then 0
  else (p.granule - clock.prev_granule) / clock.sample_rate

/-- The splicing engine state, `core.rs::Core`. -/
structure Core where
  connector : IceCastWriter
  cur_serial : Nat
  clock : OggClock
  playing_offline : Bool
  buffer : List OggPage
  prev_ogg_granule_pos : Nat
  prev_ogg_serial : Nat
  prev_ogg_sequence : Nat
  play_queue : PlayQueue
  offline_track : QueuedTrack
  playing : Option TrackInfo
deriving DecidableEq

/-- `core.rs::Core::fill_buffer`: pop a queued track (or fall back to the
offline track), rewrite its serial to `cur_serial`, advance `cur_serial` by
one with wrapping addition, and append the pages to the buffer. -/
def Core.fill_buffer (c : Core) : Core :=
  let popped := c.play_queue.pop_track
  let c1 := { c with play_queue := popped.2 }
  let track : QueuedTrack :=
    match popped.1 with
    | some t => t
    | none => c.offline_track
  let c2 :=
    match popped.1 with
    | some t =>
      { c1 with playing_offline := false, playing := some t.get_track_info }
    | none =>
      { c1 with playing_offline := true, playing := none }
  { c2 with
      cur_serial := wrappingAdd32 c2.cur_serial 1
      buffer := c2.buffer ++ update_serial c2.cur_serial track.data }

/-- First loop of `core.rs::Core::fast_forward_track_boundary`: keep pages
from the head while `continued` holds; the first non-continued page is
consumed by the iterator and dropped by the `break`. -/
def ffContinuedLoop (buf iter : List OggPage) : List OggPage × List OggPage :=
  match iter with
  | [] => (buf, [])
  | p :: rest =>
    if p.continued then ffContinuedLoop (buf ++ [p]) rest else (buf, rest)

/-- Second loop of `core.rs::Core::fast_forward_track_boundary`: drop pages
until an `eos` page is reached; that page is rewritten to continue the
previously emitted page and pushed. -/
def ffEosLoop (pg psr psq : Nat) (buf iter : List OggPage) :
    List OggPage × List OggPage :=
  match iter with
  | [] => (buf, [])
  | p :: rest =>
    if p.eos then
      (buf ++ [{ p with granule := pg, serial := psr, sequence := psq + 1 }], rest)
    else ffEosLoop pg psr psq buf rest

/-- `core.rs::Core::fast_forward_track_boundary`: the two loops above over
the drained buffer, then the remaining iterator is appended unchanged.  The
operation always returns `Ok(())` in the source; we model the state. -/
def Core.fast_forward_track_boundary (c : Core) : Core :=
  let s1 := ffContinuedLoop [] c.buffer
  let s2 := ffEosLoop c.prev_ogg_granule_pos c.prev_ogg_serial c.prev_ogg_sequence s1.1 s1.2
  { c with buffer := s2.1 ++ s2.2 }

inductive EnqueueTrackError where
  | invalidTrack
  | badSampleRate
  | full
deriving DecidableEq

structure EnqueueTrackRequest where
  track : Track
  metadata : Option Metadata
deriving DecidableEq

/-- `core.rs::Core::enqueue_track`: validations in source order (emptiness,
positions, comment section, sample rate), comment rewrite, queue admission,
and then — regardless of the admission result — a fast-forward when playing
offline; the admission result is returned. -/
def Core.enqueue_track (c : Core) (req : EnqueueTrackRequest) :
    Core × Except EnqueueTrackError Nat :=
  if req.track.isEmpty then (c, .error .invalidTrack)
  else if validate_positions req.track = false then (c, .error .invalidTrack)
  else if validate_comment_section req.track = false then (c, .error .invalidTrack)
  else if check_sample_rate c.clock.sample_rate req.track = false then
    (c, .error .badSampleRate)
  else
    let track := rewrite_comments (applyMetadata req.metadata) req.track
    let qres := c.play_queue.add_track track
    let handle : Except EnqueueTrackError Nat :=
      match qres.2 with
      | .ok h => .ok h
      | .error .full => .error .full
    let c1 := { c with play_queue := qres.1 }
    let c2 := if c1.playing_offline then c1.fast_forward_track_boundary else c1
    (c2, handle)

inductive ReplaceFallbackError where
  | invalidTrack
  | badSampleRate
deriving DecidableEq

structure ReplaceFallbackRequest where
  track : Track
  metadata : Option Metadata
deriving DecidableEq

/-- `core.rs::Core::replace_fallback`: the same validation and comment
pipeline as `enqueue_track`, then the offline track is replaced (with
`Handle(0)`); nothing else is touched. -/
def Core.replace_fallback (c : Core) (req : ReplaceFallbackRequest) :
    Core × Except ReplaceFallbackError Unit :=
  if req.track.isEmpty then (c, .error .invalidTrack)
  else if validate_positions req.track = false then (c, .error .invalidTrack)
  else if validate_comment_section req.track = false then (c, .error .invalidTrack)
  else if check_sample_rate c.clock.sample_rate req.track = false then
    (c, .error .badSampleRate)
  else
    let track := rewrite_comments (applyMetadata req.metadata) req.track
    ({ c with offline_track := { handle := 0, data := track } }, .ok ())

/-- Popping the head of the (already refilled) buffer, the tail of
`core.rs::Core::get_next_page`.  The source's `pop_front().unwrap()` panic
(buffer still empty after a refill) is modelled as `none`. -/
def getNextPageAux (c : Core) : Option (OggPage × Core) :=
  match c.buffer with
  | [] => none
  | p :: rest => some (p, { c with buffer := rest })

/-- `core.rs::Core::get_next_page`: refill when empty, then pop the head. -/
def Core.get_next_page (c : Core) : Option (OggPage × Core) :=
  getNextPageAux (if c.buffer.isEmpty then c.fill_buffer else c)

/-- The body of `core.rs::Core::tick` once the page is dequeued: record its
granule/serial/sequence as the previously emitted page, write it to the
Icecast sink swallowing any I/O error, update `now_playing`'s sample
position, and compute the next emission deadline. -/
def tickEmit (now : Nat) (page : OggPage) (c1 : Core) : Core × Nat :=
  let c2 :=
    { c1 with
        prev_ogg_granule_pos := page.granule
        prev_ogg_serial := page.serial
        prev_ogg_sequence := page.sequence }
  let sendRes := c2.connector.send_ogg_page page
  let c3 := { c2 with connector := sendRes.1 }
  let c4 :=
    match c3.playing with
    | some info => { c3 with playing := some { info with sample_position := page.granule } }
    | none => c3
  (c4, now + c4.clock.wait_duration page)

/-- `core.rs::Core::tick`: emit exactly one page. -/
def Core.tick (now : Nat) (c : Core) : Option (Core × Nat) :=
  match c.get_next_page with
  | none => none
  | some (page, c1) => some (tickEmit now page c1)

/-- The older engine variant, `src/src/core/main.rs::OutputManager`. -/
structure OutputManager where
  connector : IceCastWriter
  cur_serial : Nat
  cur_sequence : Nat
  clock : OggClock
  playing_offline : Bool
  buffer : List OggPage
  play_queue : PlayQueue
  offline_track : QueuedTrack
  playing : Option TrackInfo
deriving DecidableEq

/-- `src/src/core/main.rs::OutputManager::fill_buffer`: identical to
`Core::fill_buffer` except that the serial advance is
`cur_serial.wrapping_add(0)`. -/
def OutputManager.fill_buffer (c : OutputManager) : OutputManager :=
  let popped := c.play_queue.pop_track
  let track : QueuedTrack :=
    match popped.1 with
    | some t => t
    | none => c.offline_track
  let c2 :=
    match popped.1 with
    | some t =>
      { c with play_queue := popped.2, playing_offline := false,
               playing := some t.get_track_info }
    | none =>
      { c with play_queue := popped.2, playing_offline := true, playing := none }
  { c2 with
      cur_serial := wrappingAdd32 c2.cur_serial 0
      buffer := c2.buffer ++ update_serial c2.cur_serial track.data }

/-- Scan a page list for the first `eos` page; when found, return it
rewritten to `granule = pg`, `serial = psr`, `sequence = psq + 1`, together
with the pages after it. -/
def findEosPage (pg psr psq : Nat) : List OggPage → Option (OggPage × List OggPage)
  | [] => none
  | p :: rest =>
    if p.eos then
      some ({ p with granule := pg, serial := psr, sequence := psq + 1 }, rest)
    else findEosPage pg psr psq rest

/-- The post-call buffer of `fast_forward_track_boundary` as claim C1 states
it: keep the maximal continued prefix, search for an `eos` page from the
first non-continued page (inclusive) onward, rewrite and keep it together
with everything after it; when no `eos` page exists the buffer is empty. -/
def ffwdClaimedBuffer (pg psr psq : Nat) (buffer : List OggPage) : List OggPage :=
  let kept := buffer.takeWhile OggPage.continued
  match findEosPage pg psr psq (buffer.dropWhile OggPage.continued) with
  | some (q, after) => kept ++ q :: after
  | none => []

/-- The post-call buffer of `fast_forward_track_boundary` as the source
computes it: the first non-continued page is dropped without having its
`eos` flag examined, the `eos` search covers only the pages after it, and
when no `eos` page is found the kept continued prefix remains. -/
def ffwdAmendedBuffer (pg psr psq : Nat) (buffer : List OggPage) : List OggPage :=
  let kept := buffer.takeWhile OggPage.continued
  match buffer.dropWhile OggPage.continued with
  | [] => kept
  | _ :: rest =>
    match findEosPage pg psr psq rest with
    | some (q, after) => kept ++ q :: after
    | none => kept

/-- A message argument as `dbus.rs::adapt_enqueue_track_req` distinguishes
them.  A file descriptor is modelled as carrying the parsed Ogg track of the
file it refers to (the source reads the file and parses it). -/
inductive MessageItem where
  | fileDescriptor (track : Track)
  | stringPairs (pairs : Metadata)
  | otherItem
deriving DecidableEq

/-- `dbus.rs::adapt_enqueue_track_req`: requires a file-descriptor first
argument; any second argument (the `a(ss)` metadata pairs) is only printed,
and the request is built with `metadata: None`. -/
def adapt_enqueue_track_req (items : List MessageItem) :
    Except String EnqueueTrackRequest :=
  match items with
  | [] => .error "Invalid argument: not enough arguments"
  | first :: _ =>
    match first with
    | .fileDescriptor t => .ok { track := t, metadata := none }
    | _ => .error "Invalid argument: first argument must be file"

/-- The comment-entry lists occurring in a track, in packet order. -/
def commentEntriesOf (t : Track) : List (List (String × String)) :=
  (trackPackets t).filterMap fun pkt =>
    (Packet.commentData pkt).map VorbisComments.comments

/-! Concrete states used by counterexamples, failing inputs and witnesses. -/

def basePage : OggPage :=
  { granule := 0, serial := 0, sequence := 0, bos := false, eos := false,
    continued := false, packets := [] }

def fbPage0 : OggPage :=
  { granule := 0, serial := 9, sequence := 0, bos := true, eos := false,
    continued := false,
    packets := [.ident 48000, .comment { vendor := "orig", comments := [("orig", "v")] }] }

def fbPage1 : OggPage :=
  { granule := 960, serial := 9, sequence := 1, bos := false, eos := true,
    continued := false, packets := [.audio [1, 2]] }

def fallbackTrack : Track := [fbPage0, fbPage1]

def baseQueue : PlayQueue :=
  { capacity := 10, upcoming := [], history := [], next_handle := 1 }

def baseClock : OggClock := { sample_rate := 48000, prev_granule := 0 }

def baseWriter : IceCastWriter := { sent := [], failing := false }

def baseCore : Core :=
  { connector := baseWriter, cur_serial := 7, clock := baseClock,
    playing_offline := false, buffer := [],
    prev_ogg_granule_pos := 100, prev_ogg_serial := 2, prev_ogg_sequence := 5,
    play_queue := baseQueue,
    offline_track := { handle := 0, data := fallbackTrack }, playing := none }

def c1page : OggPage := { basePage with eos := true }

def c1core : Core := { baseCore with buffer := [c1page] }

def om0 : OutputManager :=
  { connector := baseWriter, cur_serial := 5, cur_sequence := 0,
    clock := baseClock, playing_offline := false, buffer := [],
    play_queue := baseQueue,
    offline_track := { handle := 0, data := fallbackTrack }, playing := none }

def validTrack : Track :=
  [{ granule := 0, serial := 1, sequence := 0, bos := true, eos := true,
     continued := false,
     packets := [.ident 48000, .comment { vendor := "v", comments := [("A", "B")] }] }]

def c3core : Core :=
  { baseCore with
      playing_offline := true
      buffer := [basePage]
      play_queue := { baseQueue with capacity := 0 } }

def c3req : EnqueueTrackRequest := { track := validTrack, metadata := none }

def c4page : OggPage := { basePage with granule := 960 }

def c4core : Core :=
  { baseCore with buffer := [c4page], playing := some { handle := 3, sample_position := 0 } }

def c5req : EnqueueTrackRequest :=
  { track := [{ basePage with packets := [.ident 44100] }], metadata := none }

def c8req : ReplaceFallbackRequest :=
  { track := validTrack, metadata := some [("TITLE", "x")] }

def c9track : Track := validTrack

def c9core : Core := baseCore

def c10kept : OggPage := { basePage with continued := true }

def c10core : Core := { baseCore with buffer := [c10kept, c1page, basePage] }

/-! Helper lemmas. -/

theorem ffContinuedLoop_eq (iter : List OggPage) : ∀ buf : List OggPage,
    ffContinuedLoop buf iter =
      (buf ++ iter.takeWhile OggPage.continued,
        (iter.dropWhile OggPage.continued).tail) := by
  induction iter with
  | nil => intro buf; simp [ffContinuedLoop]
  | cons p rest ih =>
    intro buf
    rw [ffContinuedLoop, List.takeWhile_cons, List.dropWhile_cons]
    by_cases hp : p.continued
    · simp only [hp, if_true, ih, List.append_assoc, List.singleton_append]
    · simp only [Bool.not_eq_true] at hp
      simp [hp]

theorem ffEosLoop_eq (pg psr psq : Nat) (iter : List OggPage) :
    ∀ buf : List OggPage,
      ffEosLoop pg psr psq buf iter =
        match findEosPage pg psr psq iter with
        | some (q, after) => (buf ++ [q], after)
        | none => (buf, []) := by
  induction iter with
  | nil => intro buf; simp [ffEosLoop, findEosPage]
  | cons p rest ih =>
    intro buf
    rw [ffEosLoop, findEosPage]
    by_cases hp : p.eos
    · simp [hp]
    · simp only [Bool.not_eq_true] at hp
      simp [hp, ih]

theorem findEosPage_eq_none (pg psr psq : Nat) (iter : List OggPage)
    (h : ∀ q ∈ iter, q.eos = false) : findEosPage pg psr psq iter = none := by
  induction iter with
  | nil => rfl
  | cons p rest ih =>
    rw [findEosPage]
    have hp := h p (List.mem_cons_self p rest)
    simp only [hp, Bool.false_eq_true, if_false]
    exact ih fun q hq => h q (List.mem_cons_of_mem p hq)

theorem takeWhile_all_append (cont : OggPage → Bool) (kept : List OggPage)
    (P : OggPage) (rest : List OggPage)
    (hkept : ∀ p ∈ kept, cont p = true) (hP : cont P = false) :
    (kept ++ P :: rest).takeWhile cont = kept := by
  induction kept with
  | nil => simp [List.takeWhile_cons, hP]
  | cons k ks ih =>
    have hk := hkept k (List.mem_cons_self k ks)
    rw [List.cons_append, List.takeWhile_cons]
    simp only [hk, if_true]
    rw [ih fun p hp => hkept p (List.mem_cons_of_mem k hp)]

theorem dropWhile_all_append (cont : OggPage → Bool) (kept : List OggPage)
    (P : OggPage) (rest : List OggPage)
    (hkept : ∀ p ∈ kept, cont p = true) (hP : cont P = false) :
    (kept ++ P :: rest).dropWhile cont = P :: rest := by
  induction kept with
  | nil => simp [List.dropWhile_cons, hP]
  | cons k ks ih =>
    have hk := hkept k (List.mem_cons_self k ks)
    rw [List.cons_append, List.dropWhile_cons]
    simp only [hk, if_true]
    exact ih fun p hp => hkept p (List.mem_cons_of_mem k hp)

/-! Claim theorems. -/

/-- C1 (counterexample): on a buffer holding a single non-continued `eos`
page the code empties the buffer, while the claim's reading — the `eos`
search starting at the first non-continued page, and an empty buffer exactly
when no `eos` page is found — would keep a rewritten `eos` page.  So
`fast_forward_track_boundary` does not implement the claimed description. -/
theorem fast_forward_claim_cex :
    (c1core.fast_forward_track_boundary).buffer ≠
      ffwdClaimedBuffer c1core.prev_ogg_granule_pos c1core.prev_ogg_serial
        c1core.prev_ogg_sequence c1core.buffer := by
  decide

/-- C1 (amended): `fast_forward_track_boundary` keeps the maximal continued
prefix, drops the first non-continued page without examining its `eos` flag,
then drops pages until an `eos` page is found among the LATER pages; that
page is rewritten to `granule = prev_granule`, `serial = prev_serial`,
`sequence = prev_sequence + 1` and pushed after the kept prefix, and every
page after it is appended unchanged.  When no `eos` page is found there,
only the kept continued prefix remains (so the buffer ends up empty exactly
when that prefix is empty). -/
theorem fast_forward_buffer_amended (c : Core) :
    (c.fast_forward_track_boundary).buffer =
      ffwdAmendedBuffer c.prev_ogg_granule_pos c.prev_ogg_serial
        c.prev_ogg_sequence c.buffer := by
  unfold Core.fast_forward_track_boundary ffwdAmendedBuffer
  rw [ffContinuedLoop_eq]
  simp only [List.nil_append]
  cases hd : c.buffer.dropWhile OggPage.continued with
  | nil => simp [ffEosLoop_eq, findEosPage]
  | cons h rest =>
    simp only [List.tail_cons]
    rw [ffEosLoop_eq]
    cases hf : findEosPage c.prev_ogg_granule_pos c.prev_ogg_serial
        c.prev_ogg_sequence rest with
    | none => simp
    | some qa => cases qa with | mk q after => simp

/-- C10: whenever the buffer is a continued prefix followed by a
non-continued page `P` — even one with `eos = true` — and no later page has
`eos = true`, the fast-forward discards `P` without examining its `eos` flag
and the post-call buffer is exactly the kept prefix, with no rewritten `eos`
page. -/
theorem fast_forward_drops_first_aligned (c : Core) (kept : List OggPage)
    (P : OggPage) (rest : List OggPage)
    (hbuf : c.buffer = kept ++ P :: rest)
    (hkept : ∀ p ∈ kept, p.continued = true)
    (hP : P.continued = false) (_hPeos : P.eos = true)
    (hrest : ∀ q ∈ rest, q.eos = false) :
    (c.fast_forward_track_boundary).buffer = kept := by
  unfold Core.fast_forward_track_boundary
  rw [ffContinuedLoop_eq]
  simp only [List.nil_append, hbuf]
  rw [takeWhile_all_append _ kept P rest hkept hP,
    dropWhile_all_append _ kept P rest hkept hP]
  simp only [List.tail_cons]
  rw [ffEosLoop_eq, findEosPage_eq_none _ _ _ rest hrest]
  simp

/-- C10 witness: a concrete buffer `[continued, non-continued eos, plain]`
with the concrete engine state; the post-call buffer is the continued page
alone. -/
theorem fast_forward_drops_first_aligned_witness :
    (c10core.fast_forward_track_boundary).buffer = [c10kept] :=
  fast_forward_drops_first_aligned c10core [c10kept] c1page [basePage]
    (by decide) (by decide) (by decide) (by decide) (by decide)

/-- C2: `Core::fill_buffer` (libireul_core) advances `cur_serial` by exactly
one with wrapping addition on every refill path, but the older
`OutputManager::fill_buffer` (src/src/core/main.rs) computes
`wrapping_add(0)` and leaves `cur_serial` unchanged — shown here on the
concrete state `om0` with `cur_serial = 5`, where the claim mandates 6. -/
theorem fill_buffer_serial_advance :
    (∀ c : Core, (c.fill_buffer).cur_serial = wrappingAdd32 c.cur_serial 1) ∧
    (om0.fill_buffer).cur_serial = om0.cur_serial ∧
    om0.cur_serial ≠ wrappingAdd32 om0.cur_serial 1 := by
  refine ⟨fun c => ?_, by decide, by decide⟩
  unfold Core.fill_buffer
  cases hp : c.play_queue.pop_track.1 <;> simp [hp]

/-- C3: an `enqueue_track` that returns the admission error `Full` while
`playing_offline = true` nevertheless mutates `page_buffer`: the admission
result is computed but not returned early, so the fast-forward at the end of
`enqueue_track` still runs.  On the concrete state `c3core` (queue at
capacity, playing offline, one buffered page) the call returns `Full` and
empties the buffer. -/
theorem enqueue_full_offline_mutates :
    (c3core.enqueue_track c3req).2 = Except.error EnqueueTrackError.full ∧
    (c3core.enqueue_track c3req).1.buffer ≠ c3core.buffer := by
  decide

/-- C5 (counterexample): a track whose identification header carries sample
rate 44100 against the engine's 48000 and which lacks a comment header is
rejected as `InvalidTrack`, not `BadSampleRate`: the comment-section check
runs before the sample-rate check in `enqueue_track`. -/
theorem validation_order_cex :
    find_identification c5req.track = some 44100 ∧
    baseCore.clock.sample_rate = 48000 ∧
    validate_comment_section c5req.track = false ∧
    (baseCore.enqueue_track c5req).2 = Except.error EnqueueTrackError.invalidTrack ∧
    (baseCore.enqueue_track c5req).2 ≠ Except.error EnqueueTrackError.badSampleRate := by
  decide

/-- C5 (amended): validation short-circuits with the comment-header check
performed before the sample-rate check: every submitted track lacking a
comment header — in particular one whose identification header also has a
mismatched sample rate — makes `enqueue_track` return `InvalidTrack`. -/
theorem enqueue_missing_comment_invalid (c : Core) (req : EnqueueTrackRequest)
    (h : validate_comment_section req.track = false) :
    (c.enqueue_track req).2 = Except.error EnqueueTrackError.invalidTrack := by
  unfold Core.enqueue_track
  split
  · rfl
  · split
    · rfl
    · simp [h]

/-- C5 witness: the concrete wrong-rate, comment-free track of
`validation_order_cex` discharged through the amended theorem. -/
theorem enqueue_missing_comment_invalid_witness :
    (baseCore.enqueue_track c5req).2 = Except.error EnqueueTrackError.invalidTrack :=
  enqueue_missing_comment_invalid baseCore c5req (by decide)

theorem fill_buffer_clock (c : Core) : (c.fill_buffer).clock = c.clock := by
  unfold Core.fill_buffer
  cases hp : c.play_queue.pop_track.1 <;> simp [hp]

theorem getNextPageAux_eq (c : Core) (p : OggPage) (rest : List OggPage)
    (h : c.buffer = p :: rest) :
    getNextPageAux c = some (p, { c with buffer := rest }) := by
  unfold getNextPageAux
  rw [h]

theorem tickEmit_spec (now : Nat) (page : OggPage) (c1 : Core) :
    (tickEmit now page c1).1.prev_ogg_granule_pos = page.granule ∧
    (tickEmit now page c1).1.prev_ogg_serial = page.serial ∧
    (tickEmit now page c1).1.prev_ogg_sequence = page.sequence ∧
    (tickEmit now page c1).1.buffer = c1.buffer ∧
    (tickEmit now page c1).1.connector = (c1.connector.send_ogg_page page).1 ∧
    (tickEmit now page c1).1.playing
      = c1.playing.map (fun info => { info with sample_position := page.granule }) ∧
    (tickEmit now page c1).2 = now + c1.clock.wait_duration page := by
  cases hpl : c1.playing <;> simp [tickEmit, hpl]

/-- C4: `tick` emits exactly one page.  With `page` the head of the buffer
after the refill-if-empty step, `tick` dequeues exactly that page, records
its granule, serial and sequence as the previously emitted page's values,
hands it to the Icecast sink (whose `failing` outcome is swallowed: the
conclusion holds for every connector state, and `tick` still completes and
returns the deadline), updates `now_playing`'s sample position to the page's
granule when it is set, and returns `now` plus the pacer's wait duration. -/
theorem tick_emits_one_page (c : Core) (now : Nat) (page : OggPage)
    (rest : List OggPage)
    (hbuf : (if c.buffer.isEmpty then c.fill_buffer else c).buffer = page :: rest) :
    ∃ c2 : Core,
      Core.tick now c = some (c2, now + c.clock.wait_duration page) ∧
      c2.prev_ogg_granule_pos = page.granule ∧
      c2.prev_ogg_serial = page.serial ∧
      c2.prev_ogg_sequence = page.sequence ∧
      c2.buffer = rest ∧
      c2.connector =
        ((if c.buffer.isEmpty then c.fill_buffer else c).connector.send_ogg_page page).1 ∧
      c2.playing =
        ((if c.buffer.isEmpty then c.fill_buffer else c).playing).map
          (fun info => { info with sample_position := page.granule }) := by
  have hclock : (if c.buffer.isEmpty then c.fill_buffer else c).clock = c.clock := by
    by_cases hb : c.buffer.isEmpty
    · rw [if_pos hb]; exact fill_buffer_clock c
    · rw [if_neg hb]
  generalize hcf : (if c.buffer.isEmpty then c.fill_buffer else c) = cf at hbuf hclock ⊢
  have hstep : Core.tick now c = some (tickEmit now page { cf with buffer := rest }) := by
    unfold Core.tick Core.get_next_page
    rw [hcf, getNextPageAux_eq cf page rest hbuf]
  obtain ⟨h1, h2, h3, h4, h5, h6, h7⟩ := tickEmit_spec now page { cf with buffer := rest }
  refine ⟨_, ?_, h1, h2, h3, h4, h5, h6⟩
  rw [hstep]
  have h8 : (tickEmit now page { cf with buffer := rest }).2
      = now + c.clock.wait_duration page := by
    rw [h7, show ({ cf with buffer := rest } : Core).clock = cf.clock from rfl, hclock]
  rw [← h8]

/-- C4 witness: on the concrete state `c4core` (non-empty buffer holding
`c4page`), `tick` at `now = 1000` emits that page. -/
theorem tick_emits_one_page_witness :
    ∃ c2 : Core,
      Core.tick 1000 c4core = some (c2, 1000 + c4core.clock.wait_duration c4page) ∧
      c2.prev_ogg_granule_pos = c4page.granule ∧
      c2.prev_ogg_serial = c4page.serial ∧
      c2.prev_ogg_sequence = c4page.sequence ∧
      c2.buffer = [] ∧
      c2.connector =
        ((if c4core.buffer.isEmpty then c4core.fill_buffer else c4core).connector.send_ogg_page
          c4page).1 ∧
      c2.playing =
        ((if c4core.buffer.isEmpty then c4core.fill_buffer else c4core).playing).map
          (fun info => { info with sample_position := c4page.granule }) :=
  tick_emits_one_page c4core 1000 c4page [] (by decide)

theorem rewritePagePackets_contract (f : VorbisComments → VorbisComments)
    (l : List Packet) :
    List.Forall₂ (fun pkt qkt =>
        (Packet.commentData pkt = none → qkt = pkt) ∧
        (∀ cm, Packet.commentData pkt = some cm → qkt = Packet.comment (f cm)))
      l (rewritePagePackets f l) := by
  unfold rewritePagePackets
  rw [List.forall₂_map_right_iff, List.forall₂_same]
  intro pkt _
  cases pkt with
  | ident r => exact ⟨fun _ => rfl, fun cm hcm => nomatch hcm⟩
  | audio d => exact ⟨fun _ => rfl, fun cm hcm => nomatch hcm⟩
  | comment cv =>
    refine ⟨fun hn => (nomatch hn), fun cm hcm => ?_⟩
    injection hcm with e
    rw [rewritePacket, e]

/-- C6: for every track and metadata option, the engine's comment rewrite
relates the input pages one-to-one, in order, to the output pages: a page
without a comment packet passes through unchanged; a page with one keeps its
`granule`, `serial`, `sequence`, `bos`, `eos` and `continued` values, and
its packets are re-emitted in original order with every non-comment packet
unchanged and every comment packet rebuilt with vendor `"Ireul Core"` and,
when a replacement entry list was supplied, exactly those entries in place
of the originals (otherwise the original entries). -/
theorem rewrite_comments_contract (t : Track) (md : Option Metadata) :
    List.Forall₂ (fun p q =>
        (pageHasComment p = false → q = p) ∧
        (pageHasComment p = true →
          q.granule = p.granule ∧ q.serial = p.serial ∧ q.sequence = p.sequence ∧
          q.bos = p.bos ∧ q.eos = p.eos ∧ q.continued = p.continued ∧
          List.Forall₂ (fun pkt qkt =>
              (Packet.commentData pkt = none → qkt = pkt) ∧
              (∀ cm, Packet.commentData pkt = some cm →
                qkt = Packet.comment
                  { vendor := "Ireul Core"
                    comments :=
                      match md with
                      | some m => m
                      | none => cm.comments }))
            p.packets q.packets))
      t (rewrite_comments (applyMetadata md) t) := by
  unfold rewrite_comments
  rw [List.forall₂_map_right_iff, List.forall₂_same]
  intro p _
  constructor
  · intro hnc
    simp [rewrite_page, hnc]
  · intro hc
    unfold rewrite_page
    rw [if_pos hc]
    exact ⟨rfl, rfl, rfl, rfl, rfl, rfl,
      rewritePagePackets_contract (applyMetadata md) p.packets⟩

theorem applyMetadata_idem (md : Option Metadata) (c : VorbisComments) :
    applyMetadata md (applyMetadata md c) = applyMetadata md c := by
  cases md <;> rfl

theorem rewritePacket_idem (f : VorbisComments → VorbisComments)
    (hf : ∀ c, f (f c) = f c) (pkt : Packet) :
    rewritePacket f (rewritePacket f pkt) = rewritePacket f pkt := by
  cases pkt with
  | comment cv => show Packet.comment (f (f cv)) = Packet.comment (f cv); rw [hf]
  | ident r => rfl
  | audio d => rfl

theorem rewritePagePackets_idem (f : VorbisComments → VorbisComments)
    (hf : ∀ c, f (f c) = f c) (l : List Packet) :
    rewritePagePackets f (rewritePagePackets f l) = rewritePagePackets f l := by
  unfold rewritePagePackets
  rw [List.map_map]
  induction l with
  | nil => rfl
  | cons pkt rest ih =>
    rw [List.map_cons, List.map_cons, ih]
    rw [Function.comp_apply, rewritePacket_idem f hf]

theorem anyComment_rewritePagePackets (f : VorbisComments → VorbisComments)
    (l : List Packet) :
    ((rewritePagePackets f l).any fun pkt => (Packet.commentData pkt).isSome)
      = (l.any fun pkt => (Packet.commentData pkt).isSome) := by
  unfold rewritePagePackets
  induction l with
  | nil => rfl
  | cons pkt rest ih =>
    rw [List.map_cons, List.any_cons, List.any_cons, ih]
    cases pkt <;> rfl

theorem rewrite_page_comment (f : VorbisComments → VorbisComments) (p : OggPage)
    (h : pageHasComment p = true) :
    rewrite_page f p =
      { granule := p.granule, serial := p.serial, sequence := p.sequence,
        bos := p.bos, eos := p.eos, continued := p.continued,
        packets := rewritePagePackets f p.packets } := by
  unfold rewrite_page
  rw [if_pos h]

theorem rewrite_page_no_comment (f : VorbisComments → VorbisComments) (p : OggPage)
    (h : pageHasComment p = false) :
    rewrite_page f p = p := by
  unfold rewrite_page
  rw [h]
  simp

theorem pageHasComment_rewrite_page (f : VorbisComments → VorbisComments)
    (p : OggPage) :
    pageHasComment (rewrite_page f p) = pageHasComment p := by
  cases hc : pageHasComment p with
  | false => rw [rewrite_page_no_comment f p hc, hc]
  | true =>
    rw [rewrite_page_comment f p hc]
    show ((rewritePagePackets f p.packets).any fun pkt => (Packet.commentData pkt).isSome) = true
    rw [anyComment_rewritePagePackets]
    exact hc

theorem rewrite_page_idem (f : VorbisComments → VorbisComments)
    (hf : ∀ c, f (f c) = f c) (p : OggPage) :
    rewrite_page f (rewrite_page f p) = rewrite_page f p := by
  cases hc : pageHasComment p with
  | false =>
    rw [rewrite_page_no_comment f p hc, rewrite_page_no_comment f p hc]
  | true =>
    have h2 : pageHasComment (rewrite_page f p) = true := by
      rw [pageHasComment_rewrite_page, hc]
    rw [rewrite_page_comment f (rewrite_page f p) h2, rewrite_page_comment f p hc]
    show ({ granule := p.granule, serial := p.serial, sequence := p.sequence,
            bos := p.bos, eos := p.eos, continued := p.continued,
            packets := rewritePagePackets f (rewritePagePackets f p.packets) } : OggPage)
        = { granule := p.granule, serial := p.serial, sequence := p.sequence,
            bos := p.bos, eos := p.eos, continued := p.continued,
            packets := rewritePagePackets f p.packets }
    rw [rewritePagePackets_idem f hf]

/-- C7: the comment rewrite is idempotent — applying the engine's rewrite a
second time, with the same metadata option, to an already rewritten track
yields the identical track. -/
theorem rewrite_comments_idempotent (t : Track) (md : Option Metadata) :
    rewrite_comments (applyMetadata md) (rewrite_comments (applyMetadata md) t)
      = rewrite_comments (applyMetadata md) t := by
  unfold rewrite_comments
  rw [List.map_map]
  induction t with
  | nil => rfl
  | cons p rest ih =>
    simp only [List.map_cons, List.cons.injEq]
    exact ⟨rewrite_page_idem _ (applyMetadata_idem md) p, ih⟩

/-- C8: a successful `replace_fallback` changes only the fallback track: the
connector, serial counter, clock, offline flag, page buffer, previous-page
bookkeeping, play queue and now-playing info are untouched; the fallback
becomes the validated, comment-rewritten track under `Handle(0)`; and a
refill that finds the queue empty appends exactly the new fallback's pages
(serial-rewritten to `cur_serial`) to the buffer. -/
theorem replace_fallback_frame (c : Core) (req : ReplaceFallbackRequest) (c2 : Core)
    (h : c.replace_fallback req = (c2, Except.ok ())) :
    c2.connector = c.connector ∧
    c2.cur_serial = c.cur_serial ∧
    c2.clock = c.clock ∧
    c2.playing_offline = c.playing_offline ∧
    c2.buffer = c.buffer ∧
    c2.prev_ogg_granule_pos = c.prev_ogg_granule_pos ∧
    c2.prev_ogg_serial = c.prev_ogg_serial ∧
    c2.prev_ogg_sequence = c.prev_ogg_sequence ∧
    c2.play_queue = c.play_queue ∧
    c2.playing = c.playing ∧
    c2.offline_track
      = { handle := 0, data := rewrite_comments (applyMetadata req.metadata) req.track } ∧
    (c2.play_queue.upcoming = [] →
      (c2.fill_buffer).buffer
        = c2.buffer ++ update_serial c2.cur_serial
            (rewrite_comments (applyMetadata req.metadata) req.track)) := by
  unfold Core.replace_fallback at h
  split at h
  · simp at h
  · split at h
    · simp at h
    · split at h
      · simp at h
      · split at h
        · simp at h
        · injection h with h1 h2
          subst h1
          refine ⟨rfl, rfl, rfl, rfl, rfl, rfl, rfl, rfl, rfl, rfl, rfl, ?_⟩
          intro hup
          have hup2 : c.play_queue.upcoming = [] := hup
          simp [Core.fill_buffer, PlayQueue.pop_track, hup2]

/-- C8 witness: replacing the fallback of the concrete engine `baseCore`
with the valid track `c8req` succeeds and satisfies the frame property. -/
theorem replace_fallback_frame_witness :
    (baseCore.replace_fallback c8req).1.connector = baseCore.connector ∧
    (baseCore.replace_fallback c8req).1.cur_serial = baseCore.cur_serial ∧
    (baseCore.replace_fallback c8req).1.clock = baseCore.clock ∧
    (baseCore.replace_fallback c8req).1.playing_offline = baseCore.playing_offline ∧
    (baseCore.replace_fallback c8req).1.buffer = baseCore.buffer ∧
    (baseCore.replace_fallback c8req).1.prev_ogg_granule_pos = baseCore.prev_ogg_granule_pos ∧
    (baseCore.replace_fallback c8req).1.prev_ogg_serial = baseCore.prev_ogg_serial ∧
    (baseCore.replace_fallback c8req).1.prev_ogg_sequence = baseCore.prev_ogg_sequence ∧
    (baseCore.replace_fallback c8req).1.play_queue = baseCore.play_queue ∧
    (baseCore.replace_fallback c8req).1.playing = baseCore.playing ∧
    (baseCore.replace_fallback c8req).1.offline_track
      = { handle := 0, data := rewrite_comments (applyMetadata c8req.metadata) c8req.track } ∧
    ((baseCore.replace_fallback c8req).1.play_queue.upcoming = [] →
      ((baseCore.replace_fallback c8req).1.fill_buffer).buffer
        = (baseCore.replace_fallback c8req).1.buffer
          ++ update_serial (baseCore.replace_fallback c8req).1.cur_serial
              (rewrite_comments (applyMetadata c8req.metadata) c8req.track)) :=
  replace_fallback_frame baseCore c8req (baseCore.replace_fallback c8req).1 (by decide)

/-- C9 (counterexample): a message-bus `EnqueueTrack` call carrying the
non-empty metadata pair list `[("ARTIST", "X")]` reaches the engine with
`metadata = none`, and the admitted track keeps its original comment entries
`[("A", "B")]` instead of the supplied pairs. -/
theorem dbus_metadata_cex :
    adapt_enqueue_track_req
        [MessageItem.fileDescriptor c9track, MessageItem.stringPairs [("ARTIST", "X")]]
      = Except.ok { track := c9track, metadata := none } ∧
    ((c9core.enqueue_track { track := c9track, metadata := none }).1.play_queue.upcoming.map
        fun qt => commentEntriesOf qt.data) = [[[("A", "B")]]] ∧
    ([("A", "B")] : Metadata) ≠ [("ARTIST", "X")] := by
  decide

theorem filterMapComments_rewritePagePackets (l : List Packet) :
    (rewritePagePackets (applyMetadata none) l).filterMap
        (fun pkt => (Packet.commentData pkt).map VorbisComments.comments)
      = l.filterMap (fun pkt => (Packet.commentData pkt).map VorbisComments.comments) := by
  unfold rewritePagePackets
  induction l with
  | nil => rfl
  | cons pkt rest ih =>
    rw [List.map_cons, List.filterMap_cons, List.filterMap_cons, ih]
    cases pkt <;> rfl

theorem commentEntriesOf_rewrite_vendor_only (t : Track) :
    commentEntriesOf (rewrite_comments (applyMetadata none) t) = commentEntriesOf t := by
  induction t with
  | nil => rfl
  | cons p rest ih =>
    unfold commentEntriesOf trackPackets rewrite_comments at ih ⊢
    rw [List.map_cons, List.flatMap_cons, List.flatMap_cons, List.filterMap_append,
      List.filterMap_append, ih]
    congr 1
    cases hc : pageHasComment p with
    | false => rw [rewrite_page_no_comment _ p hc]
    | true =>
      rw [rewrite_page_comment _ p hc]
      exact filterMapComments_rewritePagePackets p.packets

/-- C9 (amended): the message-bus adapter discards the supplied key/value
metadata pairs — any request whose first argument is a file descriptor is
passed to the engine with `metadata = None`, whatever the remaining
arguments hold — and consequently the admitted track keeps its original
comment entries; only the vendor string is rewritten. -/
theorem dbus_metadata_discarded (t : Track) (rest : List MessageItem) :
    adapt_enqueue_track_req (MessageItem.fileDescriptor t :: rest)
        = Except.ok { track := t, metadata := none } ∧
    commentEntriesOf (rewrite_comments (applyMetadata none) t) = commentEntriesOf t :=
  ⟨rfl, commentEntriesOf_rewrite_vendor_only t⟩

end Ireul
